import Mathlib

/-!
Verification development for a clinical-genomics RAG evaluation engine.

Shallow embedding of the core ranking and scoring functions:
* tokenizer (`_tok` / `_tokenize` in the source),
* `BM25Lite` index construction, `score` and `retrieve`,
* `hybrid_merge` linear score fusion,
* the metric suite (`keyword_coverage`, `context_overlap`, `retrieval_hit_at_k`,
  the `_as_text` answer normalizer),
* the rule-based `tag_errors` tagger.

Floating point is modelled by an arbitrary linear ordered field `K` (instantiated
at `ℚ` for executable witnesses and at `ℝ` with `Real.log` where the actual value
of the natural logarithm matters).  Python's stable `list.sort` is modelled by
`List.insertionSort`, which computes the same output as any stable sort.
-/

/-- Tokenizer helper: split a character list on whitespace, mirroring the
fragments produced by Python `str.split` (empty fragments may appear here; the
caller drops empty tokens, so the result of `tok` agrees with the source). -/
def splitWs : List Char → List (List Char)
  | [] => [[]]
  | c :: rest =>
    if c.isWhitespace then [] :: splitWs rest
    else
      match splitWs rest with
      | [] => [[c]]
      | w :: ws => (c :: w) :: ws

/-- Embedding of `_tok` (retriever_bm25.py) and the identical `_tokenize`
(eval_metrics.py): lower-case, split on whitespace, keep only alphanumeric
characters of each fragment, drop fragments that become empty. -/
def tok (s : String) : List String :=
  ((splitWs (s.data.map Char.toLower)).map
      (fun w => String.mk (w.filter Char.isAlphanum))).filter (fun t => t ≠ "")

/-- The state built by `BM25Lite.__init__`: the document list (`doc_id`, text),
the corpus size `N`, the document-frequency table `df`, the average document
length `avg`, and the parameters `k1`, `b`.  (The `len` table built by the
constructor is never read by `score`/`retrieve` and is omitted.) -/
structure BM25Lite where
  docs : List (String × String)
  N : ℕ
  df : String → ℕ
  avg : ℚ
  k1 : ℚ
  b : ℚ

/-- Embedding of `BM25Lite.__init__` on an already-loaded corpus: `N` is the
number of documents, `df t` counts the documents whose token list contains `t`
(the source iterates over `set(toks)`), and `avg` is total token count over `N`
(`0` for an empty corpus). -/
def mkBM25Lite (corpus : List (String × String)) (k1 b : ℚ) : BM25Lite where
  docs := corpus
  N := corpus.length
  df := fun t => (corpus.filter (fun d => t ∈ tok d.2)).length
  avg :=
    if corpus.length = 0 then 0
    else ((corpus.map (fun d => ((tok d.2).length : ℚ))).sum) / corpus.length
  k1 := k1
  b := b

/-- Core of `BM25Lite.score`, after tokenization of the query and the document.
`log` abstracts `math.log`; term-frequency lookup `term not in tf` is
`dt.count term = 0`, and `self.avg or 1.0` is the `avgdl` guard. -/
def BM25Lite.scoreTokens (K : Type) [LinearOrderedField K] (log : K → K)
    (st : BM25Lite) (qts dt : List String) : K :=
  if st.N = 0 then 0
  else
    let L := dt.length
    let avgdl : K := if st.avg = 0 then 1 else (st.avg : K)
    qts.foldl
      (fun s term =>
        if dt.count term = 0 then s
        else if st.df term = 0 then s
        else
          let df := st.df term
          let idf := log (((st.N : K) - (df : K) + 1 / 2) / ((df : K) + 1 / 2) + 1)
          let freq : K := (dt.count term : K)
          let denom :=
            freq + (st.k1 : K) * (1 - (st.b : K) + (st.b : K) * (L : K) / avgdl)
          s + idf * (freq * ((st.k1 : K) + 1) / denom))
      0

/-- Embedding of `BM25Lite.score(q, d)`: tokenize the query and the document
text, then run the scoring loop. -/
def BM25Lite.score (K : Type) [LinearOrderedField K] (log : K → K)
    (st : BM25Lite) (q dtext : String) : K :=
  BM25Lite.scoreTokens K log st (tok q) (tok dtext)

/-- Modelled from the spec's wording of the BM25 formula (for the refinement
claim C1): the sum, over each occurrence of a query token `t` that occurs in
the document's token multiset and has nonzero document frequency, of
`idf(t) * tf(t,d) * (k1 + 1) / (tf(t,d) + k1 * (1 - b + b * |d| / avgdl))`,
with `avgdl` treated as `1` when it is `0`, and `0` when `N = 0`. -/
def specScore (K : Type) [LinearOrderedField K] (log : K → K)
    (st : BM25Lite) (q dtext : String) : K :=
  if st.N = 0 then 0
  else
    let dt := tok dtext
    let qts := tok q
    let avgdl : K := if st.avg = 0 then 1 else (st.avg : K)
    ((qts.filter (fun t => decide (dt.count t ≠ 0) && decide (st.df t ≠ 0))).map
        (fun t =>
          let tf : K := (dt.count t : K)
          let idf :=
            log (((st.N : K) - (st.df t : K) + 1 / 2) / ((st.df t : K) + 1 / 2) + 1)
          idf * tf * ((st.k1 : K) + 1) /
            (tf + (st.k1 : K) * (1 - (st.b : K) + (st.b : K) * (dt.length : K) / avgdl)))).sum

/-- Folding the conditional-accumulate loop of `score` equals the initial value
plus the sum of the contributions of the accepted elements. -/
theorem foldl_if_add_eq_sum {K : Type} [LinearOrderedField K]
    (p : String → Bool) (f : String → K) :
    ∀ (l : List String) (s0 : K),
      l.foldl (fun s t => if p t then s + f t else s) s0
        = s0 + ((l.filter p).map f).sum := by
  intro l
  induction l with
  | nil => intro s0; simp
  | cons a l ih =>
    intro s0
    by_cases h : p a
    · simp [h, ih, add_assoc]
    · simp [h, ih]

/-- C1: `BM25Lite.score(q, d)` equals the spec's BM25 sum: over each occurrence
of a query token present in the document with nonzero document frequency,
`idf * tf * (k1+1) / (tf + k1*(1-b+b*|d|/avgdl))`, with the `N = 0` and
`avgdl = 0` guards.  Stated over every linear ordered field `K` and every
logarithm function, so it covers the real (`Real.log`) instantiation. -/
theorem score_eq_specScore (K : Type) [LinearOrderedField K] (log : K → K)
    (st : BM25Lite) (q dtext : String) :
    BM25Lite.score K log st q dtext = specScore K log st q dtext := by
  unfold BM25Lite.score BM25Lite.scoreTokens specScore
  by_cases hN : st.N = 0
  · simp [hN]
  · simp only [hN, if_false]
    have hbody :
        (fun (s : K) (term : String) =>
            if (tok dtext).count term = 0 then s
            else if st.df term = 0 then s
            else
              s + log (((st.N : K) - (st.df term : K) + 1 / 2) / ((st.df term : K) + 1 / 2) + 1) *
                (((tok dtext).count term : K) * ((st.k1 : K) + 1) /
                  (((tok dtext).count term : K) +
                    (st.k1 : K) * (1 - (st.b : K) + (st.b : K) * ((tok dtext).length : K) /
                      (if st.avg = 0 then (1 : K) else (st.avg : K))))))
          = fun (s : K) (term : String) =>
            if (decide ((tok dtext).count term ≠ 0) && decide (st.df term ≠ 0) : Bool) then
              s + log (((st.N : K) - (st.df term : K) + 1 / 2) / ((st.df term : K) + 1 / 2) + 1) *
                (((tok dtext).count term : K) * ((st.k1 : K) + 1) /
                  (((tok dtext).count term : K) +
                    (st.k1 : K) * (1 - (st.b : K) + (st.b : K) * ((tok dtext).length : K) /
                      (if st.avg = 0 then (1 : K) else (st.avg : K)))))
            else s := by
      funext s term
      by_cases h1 : (tok dtext).count term = 0
      · simp [h1]
      · by_cases h2 : st.df term = 0
        · simp [h1, h2]
        · simp [h1, h2]
    rw [hbody, foldl_if_add_eq_sum, zero_add]
    apply congrArg
    apply List.map_congr_left
    intro t _
    ring

/-- Descending-by-score comparison used by `scored.sort(key=lambda x: x[1],
reverse=True)`: `a` may come before `b` iff `b`'s score is at most `a`'s. -/
def scoreGE (a b : String × ℚ) : Prop := b.2 ≤ a.2

instance : DecidableRel scoreGE := fun a b => inferInstanceAs (Decidable (b.2 ≤ a.2))

instance : IsTotal (String × ℚ) scoreGE := ⟨fun a b => le_total b.2 a.2⟩

instance : IsTrans (String × ℚ) scoreGE := ⟨fun _ _ _ h1 h2 => le_trans h2 h1⟩

/-- Python's `list.sort(key=lambda x: x[1], reverse=True)` is a stable
descending sort; every stable sort computes the same list, so it is embedded
as insertion sort under `scoreGE`. -/
def rankDesc (l : List (String × ℚ)) : List (String × ℚ) := l.insertionSort scoreGE

/-- Python slice `l[:n]` for an arbitrary integer `n`: a nonnegative `n` keeps
the first `n` elements, a negative `n` drops the last `|n|` elements. -/
def pyTake {α : Type} (n : ℤ) (l : List α) : List α :=
  if 0 ≤ n then l.take n.toNat else l.take (l.length - n.natAbs)

/-- The list comprehension `[(d.doc_id, self.score(q, d)) for d in self.docs]`
inside `BM25Lite.retrieve`. -/
def BM25Lite.scoredList (log : ℚ → ℚ) (st : BM25Lite) (q : String) :
    List (String × ℚ) :=
  st.docs.map (fun d => (d.1, BM25Lite.score ℚ log st q d.2))

/-- Embedding of `BM25Lite.retrieve(q, top_k)`: score every document, sort
descending by score (stable), return the slice `scored[:top_k]`.  `top_k` is an
integer because the source applies Python slice semantics to it unchecked. -/
def BM25Lite.retrieve (log : ℚ → ℚ) (st : BM25Lite) (q : String) (top_k : ℤ) :
    List (String × ℚ) :=
  pyTake top_k (rankDesc (BM25Lite.scoredList log st q))

/-- Stability of the descending sort: the sublist of entries carrying any fixed
score is unchanged by sorting, i.e. exact ties keep their enumeration order. -/
theorem rankDesc_filter_score (l : List (String × ℚ)) (c : ℚ) :
    (rankDesc l).filter (fun x => decide (x.2 = c))
      = l.filter (fun x => decide (x.2 = c)) := by
  have hpair : (l.filter (fun x => decide (x.2 = c))).Pairwise scoreGE := by
    have hall : ∀ a ∈ l.filter (fun x => decide (x.2 = c)),
        ∀ b ∈ l.filter (fun x => decide (x.2 = c)), scoreGE a b := by
      intro a ha b hb
      have ha2 : a.2 = c := by simpa using (List.mem_filter.mp ha).2
      have hb2 : b.2 = c := by simpa using (List.mem_filter.mp hb).2
      unfold scoreGE
      rw [ha2, hb2]
    exact List.pairwise_of_forall_mem_list hall
  have hsub : List.Sublist (l.filter (fun x => decide (x.2 = c))) (rankDesc l) :=
    List.sublist_insertionSort hpair (List.filter_sublist l)
  have hsub2 : List.Sublist (l.filter (fun x => decide (x.2 = c)))
      ((rankDesc l).filter (fun x => decide (x.2 = c))) := by
    have := List.Sublist.filter (fun x => decide (x.2 = c)) hsub
    simpa [List.filter_filter] using this
  have hperm : List.Perm ((rankDesc l).filter (fun x => decide (x.2 = c)))
      (l.filter (fun x => decide (x.2 = c))) :=
    (List.perm_insertionSort scoreGE l).filter _
  exact ((List.Sublist.eq_of_length hsub2 hperm.length_eq.symm).symm)

/-- C2: for a nonnegative `top_k`, `retrieve` returns the first `top_k` entries
of the stable descending sort of the scores of every indexed document; the
sorted list is a permutation of the per-document scored list, it is sorted
descending, exact ties keep the corpus enumeration order, and a `top_k` at
least the corpus size returns the full ranking. -/
theorem retrieve_sorts_and_takes (log : ℚ → ℚ) (corpus : List (String × String))
    (k1 b : ℚ) (q : String) (k : ℤ) (hk : 0 ≤ k) :
    BM25Lite.retrieve log (mkBM25Lite corpus k1 b) q k
        = (rankDesc (BM25Lite.scoredList log (mkBM25Lite corpus k1 b) q)).take k.toNat
    ∧ List.Perm (rankDesc (BM25Lite.scoredList log (mkBM25Lite corpus k1 b) q))
        (BM25Lite.scoredList log (mkBM25Lite corpus k1 b) q)
    ∧ List.Sorted scoreGE (rankDesc (BM25Lite.scoredList log (mkBM25Lite corpus k1 b) q))
    ∧ (∀ c : ℚ,
        (rankDesc (BM25Lite.scoredList log (mkBM25Lite corpus k1 b) q)).filter
            (fun x => decide (x.2 = c))
          = (BM25Lite.scoredList log (mkBM25Lite corpus k1 b) q).filter
              (fun x => decide (x.2 = c)))
    ∧ ((corpus.length : ℤ) ≤ k →
        BM25Lite.retrieve log (mkBM25Lite corpus k1 b) q k
          = rankDesc (BM25Lite.scoredList log (mkBM25Lite corpus k1 b) q)) := by
  refine ⟨?_, ?_, ?_, ?_, ?_⟩
  · unfold BM25Lite.retrieve pyTake
    rw [if_pos hk]
  · exact List.perm_insertionSort scoreGE _
  · exact List.sorted_insertionSort scoreGE _
  · intro c
    exact rankDesc_filter_score _ c
  · intro hle
    unfold BM25Lite.retrieve pyTake
    rw [if_pos hk]
    apply List.take_of_length_le
    have hlen : (rankDesc (BM25Lite.scoredList log (mkBM25Lite corpus k1 b) q)).length
        = corpus.length := by
      unfold rankDesc
      rw [(List.perm_insertionSort scoreGE _).length_eq]
      simp [BM25Lite.scoredList, mkBM25Lite]
    rw [hlen]
    omega

/-- Witness for C2 at a concrete corpus, query and `top_k = 1`. -/
theorem retrieve_sorts_and_takes_witness :
    BM25Lite.retrieve (fun x => x) (mkBM25Lite [("a", "w")] (3 / 2) (3 / 4)) "w" 1
      = (rankDesc (BM25Lite.scoredList (fun x => x)
          (mkBM25Lite [("a", "w")] (3 / 2) (3 / 4)) "w")).take (1 : ℤ).toNat :=
  (retrieve_sorts_and_takes (fun x => x) [("a", "w")] (3 / 2) (3 / 4) "w" 1
    (by norm_num)).1

/-- C6 (code evaluation at the failing input): the source never validates
`top_k`; a negative `top_k` silently truncates via Python slice semantics
instead of failing fast.  On a two-document corpus, `retrieve(q, -1)` returns a
one-element ranking (all but the last entry) and reports no error. -/
theorem retrieve_negative_top_k_truncates (log : ℚ → ℚ) :
    BM25Lite.retrieve log (mkBM25Lite [("a", "x"), ("b", "x")] (3 / 2) (3 / 4)) "" (-1)
      = [("a", 0)] := by
  have htok : tok "" = [] := by decide
  have h1 : BM25Lite.scoredList log (mkBM25Lite [("a", "x"), ("b", "x")] (3 / 2) (3 / 4)) ""
      = [("a", 0), ("b", 0)] := by
    simp [BM25Lite.scoredList, BM25Lite.score, BM25Lite.scoreTokens, mkBM25Lite, htok]
  unfold BM25Lite.retrieve
  rw [h1]
  have h2 : rankDesc [("a", (0 : ℚ)), ("b", 0)] = [("a", 0), ("b", 0)] := by
    simp [rankDesc, List.insertionSort, List.orderedInsert, scoreGE]
  rw [h2]
  simp [pyTake]

/-- Python dict update `scores[doc] = scores.get(doc, 0.0) + s` on an
insertion-ordered association list: add to the existing binding in place, or
append a new binding at the end. -/
def updAdd : List (String × ℚ) → String → ℚ → List (String × ℚ)
  | [], doc, s => [(doc, s)]
  | (d, v) :: rest, doc, s =>
    if d = doc then (d, v + s) :: rest else (d, v) :: updAdd rest doc s

/-- Lookup in an insertion-ordered association list (Python `dict` access). -/
def getScore : List (String × ℚ) → String → Option ℚ
  | [], _ => none
  | (d, v) :: rest, doc => if d = doc then some v else getScore rest doc

/-- Total score an identifier carries in a ranking (sum over all its entries;
rankings produced by the retrievers list each identifier once). -/
def sumScores (l : List (String × ℚ)) (doc : String) : ℚ :=
  ((l.filter (fun x => decide (x.1 = doc))).map (fun x => x.2)).sum

/-- Embedding of `hybrid_merge(bm25, dense, alpha)`: accumulate
`alpha * score` over the first ranking, then `(1 - alpha) * score` over the
second, into one insertion-ordered dict, then sort items descending by score
(Python `sorted(..., reverse=True)`, stable). -/
def hybrid_merge (bm25 dense : List (String × ℚ)) (alpha : ℚ) :
    List (String × ℚ) :=
  rankDesc
    (dense.foldl (fun m ds => updAdd m ds.1 ((1 - alpha) * ds.2))
      (bm25.foldl (fun m ds => updAdd m ds.1 (alpha * ds.2)) []))

theorem getScore_updAdd (m : List (String × ℚ)) (d : String) (s : ℚ) (x : String) :
    getScore (updAdd m d s) x
      = if x = d then some ((getScore m x).getD 0 + s) else getScore m x := by
  induction m with
  | nil =>
    by_cases h : x = d
    · subst h; simp [updAdd, getScore]
    · simp [updAdd, getScore, h, Ne.symm h]
  | cons hd tl ih =>
    obtain ⟨d0, v0⟩ := hd
    by_cases h1 : d0 = d
    · subst h1
      by_cases h2 : x = d0
      · subst h2; simp [updAdd, getScore]
      · simp [updAdd, getScore, h2, Ne.symm h2]
    · by_cases h2 : d0 = x
      · subst h2
        simp [updAdd, getScore, h1]
      · simp [updAdd, getScore, h1, h2, ih]

theorem sumScores_cons (d : String) (s : ℚ) (rest : List (String × ℚ)) (x : String) :
    sumScores ((d, s) :: rest) x = (if d = x then s else 0) + sumScores rest x := by
  by_cases h : d = x
  · simp [sumScores, h]
  · simp [sumScores, h]

theorem sumScores_eq_zero (l : List (String × ℚ)) (x : String)
    (h : l.any (fun e => decide (e.1 = x)) = false) : sumScores l x = 0 := by
  have : l.filter (fun e => decide (e.1 = x)) = [] := by
    rw [List.filter_eq_nil_iff]
    intro a ha
    have := List.any_eq_false.mp h a ha
    simpa using this
  simp [sumScores, this]

theorem getScore_foldl_updAdd (w : ℚ) (entries : List (String × ℚ)) :
    ∀ (m : List (String × ℚ)) (x : String),
      getScore (entries.foldl (fun m2 ds => updAdd m2 ds.1 (w * ds.2)) m) x
        = if entries.any (fun e => decide (e.1 = x)) then
            some ((getScore m x).getD 0 + w * sumScores entries x)
          else getScore m x := by
  induction entries with
  | nil => intro m x; simp [sumScores]
  | cons e rest ih =>
    intro m x
    obtain ⟨d, s⟩ := e
    simp only [List.foldl_cons]
    rw [ih, sumScores_cons, getScore_updAdd, List.any_cons]
    by_cases hd : d = x
    · subst hd
      by_cases hrest : rest.any (fun e => decide (e.1 = d)) = true
      · simp only [hrest, if_true, eq_self_iff_true, decide_True, Bool.true_or,
          Option.getD_some]
        congr 1
        ring
      · rw [Bool.not_eq_true] at hrest
        rw [sumScores_eq_zero rest d hrest]
        simp only [hrest, eq_self_iff_true, decide_True, Bool.true_or, if_true,
          Bool.false_eq_true, if_false]
        congr 1
        ring
    · have hx : ¬ x = d := fun hh => hd hh.symm
      simp only [hd, hx, decide_eq_true_eq, decide_eq_false_iff_not, if_false,
        decide_False, Bool.false_or, if_neg]
      simp [hd, hx]

theorem mem_keys_updAdd (m : List (String × ℚ)) (d : String) (s : ℚ) (x : String) :
    x ∈ (updAdd m d s).map Prod.fst ↔ x ∈ m.map Prod.fst ∨ x = d := by
  induction m with
  | nil => simp [updAdd]
  | cons hd tl ih =>
    obtain ⟨d0, v0⟩ := hd
    by_cases h : d0 = d
    · subst h; simp [updAdd]; tauto
    · simp [updAdd, h, ih]; tauto

theorem nodup_keys_updAdd (m : List (String × ℚ)) (d : String) (s : ℚ)
    (h : (m.map Prod.fst).Nodup) : ((updAdd m d s).map Prod.fst).Nodup := by
  induction m with
  | nil => simp [updAdd]
  | cons hd tl ih =>
    obtain ⟨d0, v0⟩ := hd
    by_cases h1 : d0 = d
    · subst h1; simpa [updAdd] using h
    · simp only [List.map_cons, List.nodup_cons] at h
      have ih2 := ih h.2
      simp only [updAdd, if_neg h1, List.map_cons, List.nodup_cons]
      refine ⟨?_, ih2⟩
      intro hmem
      rcases (mem_keys_updAdd tl d s d0).mp hmem with hin | heq
      · exact h.1 hin
      · exact h1 heq

theorem nodup_keys_foldl_updAdd (w : ℚ) (entries : List (String × ℚ)) :
    ∀ (m : List (String × ℚ)), (m.map Prod.fst).Nodup →
      (((entries.foldl (fun m2 ds => updAdd m2 ds.1 (w * ds.2)) m)).map Prod.fst).Nodup := by
  induction entries with
  | nil => intro m h; simpa using h
  | cons e rest ih =>
    intro m h
    simp only [List.foldl_cons]
    exact ih _ (nodup_keys_updAdd m e.1 (w * e.2) h)

theorem getScore_perm {l l' : List (String × ℚ)} (h : List.Perm l l')
    (hnd : (l.map Prod.fst).Nodup) (x : String) : getScore l x = getScore l' x := by
  induction h with
  | nil => rfl
  | cons a h ih =>
    obtain ⟨d, v⟩ := a
    simp only [List.map_cons, List.nodup_cons] at hnd
    by_cases hd : d = x
    · simp [getScore, hd]
    · simp [getScore, hd, ih hnd.2]
  | swap a b l =>
    obtain ⟨da, va⟩ := a
    obtain ⟨db, vb⟩ := b
    simp only [List.map_cons, List.nodup_cons, List.mem_cons] at hnd
    have hne : ¬ db = da := fun hh => hnd.1 (Or.inl hh)
    have hne2 : ¬ da = db := fun hh => hne hh.symm
    by_cases h1 : db = x
    · subst h1
      simp [getScore, hne2]
    · by_cases h2 : da = x
      · subst h2
        simp [getScore, hne]
      · simp [getScore, h1, h2]
  | trans h1 h2 ih1 ih2 =>
    have hmid := ((h1.map Prod.fst).nodup_iff).mp hnd
    rw [ih1 hnd, ih2 hmid]

/-- Counterexample to C3: with `alpha = 1.0`, fusing `A = [("a", 1)]` with
`B = [("b", 2)]` retains the identifier `"b"` (absent from `A`) with score
`0`, so the result is not `A`. -/
theorem hybrid_merge_alpha_one_counterexample :
    hybrid_merge [("a", 1)] [("b", 2)] 1 = [("a", 1), ("b", 0)]
      ∧ hybrid_merge [("a", 1)] [("b", 2)] 1 ≠ [("a", 1)] := by
  have h : hybrid_merge [("a", 1)] [("b", 2)] 1 = [("a", 1), ("b", 0)] := by
    norm_num [hybrid_merge, updAdd, rankDesc, List.insertionSort,
      List.orderedInsert, scoreGE]
  refine ⟨h, ?_⟩
  rw [h]
  simp

/-- C3 amended: for every `alpha` and every identifier, the fused ranking
assigns the identifier the combined score
`alpha * (its total score in A) + (1 - alpha) * (its total score in B)` when it
occurs in either input, and omits it otherwise.  At `alpha = 1` each identifier
of `A` keeps exactly its `A` score, but identifiers occurring only in `B` are
kept with score `0` rather than dropped (symmetrically at `alpha = 0`). -/
theorem hybrid_merge_score_profile (A B : List (String × ℚ)) (alpha : ℚ) (x : String) :
    getScore (hybrid_merge A B alpha) x
      = if (A.any (fun e => decide (e.1 = x)) || B.any (fun e => decide (e.1 = x))) then
          some (alpha * sumScores A x + (1 - alpha) * sumScores B x)
        else none := by
  unfold hybrid_merge
  have hnd1 : (((A.foldl (fun m ds => updAdd m ds.1 (alpha * ds.2)) [])).map Prod.fst).Nodup :=
    nodup_keys_foldl_updAdd alpha A [] (by simp)
  have hnd2 : (((B.foldl (fun m ds => updAdd m ds.1 ((1 - alpha) * ds.2))
      (A.foldl (fun m ds => updAdd m ds.1 (alpha * ds.2)) []))).map Prod.fst).Nodup :=
    nodup_keys_foldl_updAdd (1 - alpha) B _ hnd1
  have hperm : List.Perm
      (rankDesc (B.foldl (fun m ds => updAdd m ds.1 ((1 - alpha) * ds.2))
        (A.foldl (fun m ds => updAdd m ds.1 (alpha * ds.2)) [])))
      (B.foldl (fun m ds => updAdd m ds.1 ((1 - alpha) * ds.2))
        (A.foldl (fun m ds => updAdd m ds.1 (alpha * ds.2)) [])) :=
    List.perm_insertionSort scoreGE _
  rw [← getScore_perm hperm.symm hnd2 x]
  rw [getScore_foldl_updAdd, getScore_foldl_updAdd]
  by_cases hA : A.any (fun e => decide (e.1 = x)) = true
  · by_cases hB : B.any (fun e => decide (e.1 = x)) = true
    · simp [hA, hB, getScore]
    · rw [Bool.not_eq_true] at hB
      rw [sumScores_eq_zero B x hB]
      simp [hA, hB, getScore]
  · rw [Bool.not_eq_true] at hA
    rw [sumScores_eq_zero A x hA]
    by_cases hB : B.any (fun e => decide (e.1 = x)) = true
    · simp [hA, hB, getScore]
    · rw [Bool.not_eq_true] at hB
      simp [hA, hB, getScore]

/-- Does `needle` match the first characters of `hay`? -/
def strHeadMatch : List Char → List Char → Bool
  | [], _ => true
  | _ :: _, [] => false
  | c :: cs, h :: hs => decide (c = h) && strHeadMatch cs hs

/-- Python substring operator `needle in hay` on character lists (an empty
needle is contained in everything). -/
def strHasSub : List Char → List Char → Bool
  | needle, [] => needle.isEmpty
  | needle, c :: hs => strHeadMatch needle (c :: hs) || strHasSub needle hs

/-- A dynamically typed Python answer as seen by `_as_text`: a plain string, a
dict (string keys, arbitrary values), or any other object (its identity is
irrelevant to the source beyond `str()`; a tag distinguishes values). -/
inductive Answer where
  | str (s : String)
  | dict (m : List (String × Answer))
  | other (tag : String)

/-- Python dict lookup for answer dicts. -/
def lookupAns : List (String × Answer) → String → Option Answer
  | [], _ => none
  | (k, v) :: rest, key => if k = key then some v else lookupAns rest key

/-- The value of key `k` when it is present and is a string (`answer.get(k)`
followed by `isinstance(v, str)`). -/
def keyStr (m : List (String × Answer)) (k : String) : Option String :=
  match lookupAns m k with
  | some (Answer.str s) => some s
  | _ => none

/-- First string value among the keys `text`, `answer`, `output`, `content`,
in that order (the loop inside `_as_text`). -/
def firstStrVal (m : List (String × Answer)) : Option String :=
  match keyStr m "text" with
  | some s => s
  | none =>
    match keyStr m "answer" with
    | some s => s
    | none =>
      match keyStr m "output" with
      | some s => s
      | none => keyStr m "content"

/-- Embedding of `_as_text`.  `jd` models `json.dumps` (`none` models the
serializer raising) and `ps` models Python `str()`; both are parameters since
the source delegates to the standard library for them. -/
def asTextF (jd : List (String × Answer) → Option String) (ps : Answer → String) :
    Answer → String
  | Answer.str s => s
  | Answer.dict m =>
    match firstStrVal m with
    | some s => s
    | none =>
      match jd m with
      | some j => j
      | none => ps (Answer.dict m)
  | Answer.other t => ps (Answer.other t)

/-- Embedding of `keyword_coverage(answer, expected_keywords)`: the fraction
of keywords whose lower-cased form occurs as a substring of the lower-cased
answer text; `0` on an empty keyword list. -/
def keyword_coverage (jd : List (String × Answer) → Option String)
    (ps : Answer → String) (answer : Answer) (expected_keywords : List String) : ℚ :=
  if expected_keywords = [] then 0
  else
    ((expected_keywords.countP
        (fun kw => strHasSub (kw.data.map Char.toLower)
          ((asTextF jd ps answer).data.map Char.toLower))) : ℚ)
      / expected_keywords.length

/-- Embedding of `context_overlap(answer, context_text)`: the fraction of
answer tokens (with multiplicity) that occur in the token set of the context;
`0` when the answer tokenizes to nothing. -/
def context_overlap (jd : List (String × Answer) → Option String)
    (ps : Answer → String) (answer : Answer) (context_text : String) : ℚ :=
  if tok (asTextF jd ps answer) = [] then 0
  else
    (((tok (asTextF jd ps answer)).countP
        (fun t => (tok context_text).contains t)) : ℚ)
      / (tok (asTextF jd ps answer)).length

/-- C7: both coverage metrics always lie in `[0, 1]`; `keyword_coverage` is
`0` on an empty keyword list and `context_overlap` is `0` when the answer
tokenizes to nothing. -/
theorem coverage_and_overlap_bounds (jd : List (String × Answer) → Option String)
    (ps : Answer → String) (ans : Answer) (kws : List String) (ctx : String) :
    (0 ≤ keyword_coverage jd ps ans kws ∧ keyword_coverage jd ps ans kws ≤ 1)
    ∧ keyword_coverage jd ps ans [] = 0
    ∧ (0 ≤ context_overlap jd ps ans ctx ∧ context_overlap jd ps ans ctx ≤ 1)
    ∧ (tok (asTextF jd ps ans) = [] → context_overlap jd ps ans ctx = 0) := by
  refine ⟨⟨?_, ?_⟩, by simp [keyword_coverage], ⟨?_, ?_⟩, ?_⟩
  · unfold keyword_coverage
    by_cases h : kws = []
    · simp [h]
    · rw [if_neg h]
      positivity
  · unfold keyword_coverage
    by_cases h : kws = []
    · simp [h]
    · rw [if_neg h]
      rw [div_le_one (by exact_mod_cast List.length_pos.mpr h)]
      exact_mod_cast List.countP_le_length _
  · unfold context_overlap
    by_cases h : tok (asTextF jd ps ans) = []
    · simp [h]
    · rw [if_neg h]
      positivity
  · unfold context_overlap
    by_cases h : tok (asTextF jd ps ans) = []
    · simp [h]
    · rw [if_neg h]
      rw [div_le_one (by exact_mod_cast List.length_pos.mpr h)]
      exact_mod_cast List.countP_le_length _
  · intro h
    simp [context_overlap, h]

/-- Witness for C7's empty-answer clause at a concrete answer and context. -/
theorem coverage_and_overlap_bounds_witness :
    context_overlap (fun _ => none) (fun _ => "") (Answer.str "") "abc" = 0 :=
  (coverage_and_overlap_bounds (fun _ => none) (fun _ => "") (Answer.str "") ["k"]
    "abc").2.2.2 (by decide)

/-- A Python value sitting inside a retrieved-item dict: a string or anything
else (tagged; only string-ness matters to the source). -/
inductive PyV where
  | pstr (s : String)
  | pother (tag : String)

/-- Python dict lookup for retrieved-item dicts. -/
def lookupPyV : List (String × PyV) → String → Option PyV
  | [], _ => none
  | (k, v) :: rest, key => if k = key then some v else lookupPyV rest key

/-- An entry of a retrieved ranking as normalized by `retrieval_hit_at_k`:
a plain string id, a dict, a pair `(doc, score)` (only the first component is
read), or any other object with an optional string attribute `doc_id` (`none`
models both a missing attribute and a non-string one; the empty tuple also
lands here since `getattr` on it yields `None`). -/
inductive RElem where
  | rstr (s : String)
  | rdict (m : List (String × PyV))
  | rpair (fst : RElem) (score : ℚ)
  | robj (attr : Option String)

/-- The dict branch of the normalizer: `item.get("doc_id")` kept only when it
is a string. -/
def dictDocId (m : List (String × PyV)) : Option String :=
  match lookupPyV m "doc_id" with
  | some (PyV.pstr s) => some s
  | _ => none

/-- Normalization of one retrieved entry to a document identifier, exactly as
the loop body of `retrieval_hit_at_k` does it: a plain string is kept; a dict
yields its string `doc_id` value; a pair yields the `doc_id` of its first
component when that component is a dict or an attribute-bearing object (a
plain-string first component has no `doc_id` attribute and yields nothing);
any other object yields its `doc_id` attribute. -/
def normEntry : RElem → Option String
  | RElem.rstr s => some s
  | RElem.rdict m => dictDocId m
  | RElem.rpair f _ =>
    match f with
    | RElem.rdict m => dictDocId m
    | RElem.robj a => a
    | _ => none
  | RElem.robj a => a

/-- Embedding of `retrieval_hit_at_k(retrieved, gold_doc_ids, k)`: normalize
the first `k` entries (ignoring the ones that do not normalize), and return
`1.0` iff any normalized identifier is in the gold set. -/
def retrieval_hit_at_k (retrieved : List RElem) (gold_doc_ids : List String)
    (k : ℕ) : ℚ :=
  if ((retrieved.take k).filterMap normEntry).any
      (fun d => gold_doc_ids.contains d) then 1 else 0

/-- Counterexample to C4: the ranking `[("b", 1.0)]` — the exact shape
`BM25Lite.retrieve` produces — with gold set `{"b"}` yields `0.0`, not the
`1.0` the claim requires: the normalizer reads `item[0]` only through
`get("doc_id")`/`getattr(..., "doc_id")`, and a plain string has neither. -/
theorem hit_at_k_string_pair_counterexample :
    retrieval_hit_at_k [RElem.rpair (RElem.rstr "b") 1] ["b"] 1 = 0
      ∧ retrieval_hit_at_k [RElem.rpair (RElem.rstr "b") 1] ["b"] 1 ≠ 1 := by
  constructor
  · rfl
  · intro h
    rw [show retrieval_hit_at_k [RElem.rpair (RElem.rstr "b") 1] ["b"] 1 = 0 from rfl] at h
    norm_num at h

/-- C4 amended: `retrieval_hit_at_k` returns `1.0` or `0.0`, and returns `1.0`
iff one of the first `k` entries normalizes to an identifier in the gold set,
where normalization accepts plain strings, `doc_id`-bearing dicts and records,
and pairs whose first component is a `doc_id`-bearing dict or record — but a
pair whose first component is a plain string normalizes to nothing and is
ignored. -/
theorem hit_at_k_iff (retrieved : List RElem) (gold : List String) (k : ℕ) :
    (retrieval_hit_at_k retrieved gold k = 1 ∨ retrieval_hit_at_k retrieved gold k = 0)
    ∧ (retrieval_hit_at_k retrieved gold k = 1
        ↔ ∃ e ∈ retrieved.take k, ∃ i, normEntry e = some i ∧ i ∈ gold) := by
  unfold retrieval_hit_at_k
  by_cases h : (((retrieved.take k).filterMap normEntry).any
      (fun d => gold.contains d)) = true
  · rw [if_pos h]
    refine ⟨Or.inl rfl, iff_of_true rfl ?_⟩
    obtain ⟨d, hd, hg⟩ := List.any_eq_true.mp h
    obtain ⟨e, he, hne⟩ := List.mem_filterMap.mp hd
    exact ⟨e, he, d, hne, by simpa using hg⟩
  · rw [if_neg h]
    refine ⟨Or.inr rfl, iff_of_false (by norm_num) ?_⟩
    rintro ⟨e, he, i, hni, hig⟩
    exact h (List.any_eq_true.mpr
      ⟨i, List.mem_filterMap.mpr ⟨e, he, hni⟩, by simpa using hig⟩)

/-- The four diagnostic tags produced by `tag_errors`. -/
structure Tags where
  no_hit_at_k : Bool
  low_coverage : Bool
  low_overlap : Bool
  no_citations : Bool

/-- Python `d.get(key, default)` over an association list. -/
def dictGetD (m : List (String × ℚ)) (k : String) (dflt : ℚ) : ℚ :=
  (getScore m k).getD dflt

/-- Embedding of `tag_errors(metrics, thresholds)`: four independent threshold
rules with defaults `0.4` for `low_coverage` and `0.5` for `low_overlap`, and
`0.0` default for every absent metric. -/
def tag_errors (metrics thresholds : List (String × ℚ)) : Tags where
  no_hit_at_k := decide (dictGetD metrics "hit@k" 0 < 1)
  low_coverage :=
    decide (dictGetD metrics "keyword_coverage" 0 < dictGetD thresholds "low_coverage" (2 / 5))
  low_overlap :=
    decide (dictGetD metrics "context_overlap" 0 < dictGetD thresholds "low_overlap" (1 / 2))
  no_citations := decide (dictGetD metrics "citation_recall" 0 = 0)

/-- C8: each tag is computed by its fixed strict-threshold rule (defaults
`0.4` and `0.5`), and each tag depends only on its own metric (and, for the
coverage/overlap tags, its own threshold) — bundles agreeing on that metric
and threshold get the same tag whatever the other values are. -/
theorem tag_errors_rules (metrics thresholds : List (String × ℚ)) :
    ((tag_errors metrics thresholds).no_hit_at_k = true ↔ dictGetD metrics "hit@k" 0 < 1)
    ∧ ((tag_errors metrics thresholds).low_coverage = true
        ↔ dictGetD metrics "keyword_coverage" 0 < dictGetD thresholds "low_coverage" (2 / 5))
    ∧ ((tag_errors metrics thresholds).low_overlap = true
        ↔ dictGetD metrics "context_overlap" 0 < dictGetD thresholds "low_overlap" (1 / 2))
    ∧ ((tag_errors metrics thresholds).no_citations = true
        ↔ dictGetD metrics "citation_recall" 0 = 0)
    ∧ (∀ m2 t2, dictGetD m2 "hit@k" 0 = dictGetD metrics "hit@k" 0 →
        (tag_errors m2 t2).no_hit_at_k = (tag_errors metrics thresholds).no_hit_at_k)
    ∧ (∀ m2 t2, dictGetD m2 "keyword_coverage" 0 = dictGetD metrics "keyword_coverage" 0 →
        dictGetD t2 "low_coverage" (2 / 5) = dictGetD thresholds "low_coverage" (2 / 5) →
        (tag_errors m2 t2).low_coverage = (tag_errors metrics thresholds).low_coverage)
    ∧ (∀ m2 t2, dictGetD m2 "context_overlap" 0 = dictGetD metrics "context_overlap" 0 →
        dictGetD t2 "low_overlap" (1 / 2) = dictGetD thresholds "low_overlap" (1 / 2) →
        (tag_errors m2 t2).low_overlap = (tag_errors metrics thresholds).low_overlap)
    ∧ (∀ m2 t2, dictGetD m2 "citation_recall" 0 = dictGetD metrics "citation_recall" 0 →
        (tag_errors m2 t2).no_citations = (tag_errors metrics thresholds).no_citations) := by
  refine ⟨by simp [tag_errors], by simp [tag_errors], by simp [tag_errors],
    by simp [tag_errors], ?_, ?_, ?_, ?_⟩
  · intro m2 t2 h
    simp [tag_errors, h]
  · intro m2 t2 h1 h2
    simp only [tag_errors]
    rw [h1, h2]
  · intro m2 t2 h1 h2
    simp only [tag_errors]
    rw [h1, h2]
  · intro m2 t2 h
    simp [tag_errors, h]

/-- Witness for C8's independence clause at concrete bundles. -/
theorem tag_errors_rules_witness :
    (tag_errors [("hit@k", 0)] [("low_coverage", 1)]).no_hit_at_k
      = (tag_errors [("hit@k", 0), ("keyword_coverage", 1)] []).no_hit_at_k :=
  (tag_errors_rules [("hit@k", 0), ("keyword_coverage", 1)] []).2.2.2.2.1
    [("hit@k", 0)] [("low_coverage", 1)] (by simp [dictGetD, getScore])

/-- C9: `tag_errors` is total over arbitrary bundles — an absent metric key is
read as `0.0` and an absent threshold key as its named default; in particular
a bundle with no `hit@k` entry always sets `no_hit_at_k` and a bundle with no
`citation_recall` entry always sets `no_citations`. -/
theorem tag_errors_missing_keys (metrics thresholds : List (String × ℚ)) :
    (getScore metrics "hit@k" = none → (tag_errors metrics thresholds).no_hit_at_k = true)
    ∧ (getScore metrics "citation_recall" = none →
        (tag_errors metrics thresholds).no_citations = true)
    ∧ (getScore thresholds "low_coverage" = none →
        (tag_errors metrics thresholds).low_coverage
          = decide (dictGetD metrics "keyword_coverage" 0 < 2 / 5))
    ∧ (getScore thresholds "low_overlap" = none →
        (tag_errors metrics thresholds).low_overlap
          = decide (dictGetD metrics "context_overlap" 0 < 1 / 2)) := by
  refine ⟨?_, ?_, ?_, ?_⟩
  · intro h
    simp only [tag_errors, dictGetD, h, Option.getD_none, decide_eq_true_eq]
    norm_num
  · intro h
    simp only [tag_errors, dictGetD, h, Option.getD_none, decide_eq_true_eq]
  · intro h
    simp only [tag_errors, dictGetD, h, Option.getD_none]
  · intro h
    simp only [tag_errors, dictGetD, h, Option.getD_none]

/-- Witness for C9 on the empty bundle: both `no_hit_at_k` and `no_citations`
come out true. -/
theorem tag_errors_missing_keys_witness :
    (tag_errors [] []).no_hit_at_k = true ∧ (tag_errors [] []).no_citations = true :=
  ⟨(tag_errors_missing_keys [] []).1 rfl, (tag_errors_missing_keys [] []).2.1 rfl⟩

/-- C10: `_as_text` never fails on answer shape: a string is returned as is; a
dict yields the first string value among `text`, `answer`, `output`,
`content` in that order; when none of those holds a string, the JSON dump is
used when the serializer succeeds and `str()` otherwise; every other value is
used via `str()`.  The two coverage metrics read the answer only through this
normalization. -/
theorem as_text_shape (jd : List (String × Answer) → Option String)
    (ps : Answer → String) :
    (∀ s, asTextF jd ps (Answer.str s) = s)
    ∧ (∀ m s, keyStr m "text" = some s → asTextF jd ps (Answer.dict m) = s)
    ∧ (∀ m s, keyStr m "text" = none → keyStr m "answer" = some s →
        asTextF jd ps (Answer.dict m) = s)
    ∧ (∀ m s, keyStr m "text" = none → keyStr m "answer" = none →
        keyStr m "output" = some s → asTextF jd ps (Answer.dict m) = s)
    ∧ (∀ m s, keyStr m "text" = none → keyStr m "answer" = none →
        keyStr m "output" = none → keyStr m "content" = some s →
        asTextF jd ps (Answer.dict m) = s)
    ∧ (∀ m j, keyStr m "text" = none → keyStr m "answer" = none →
        keyStr m "output" = none → keyStr m "content" = none → jd m = some j →
        asTextF jd ps (Answer.dict m) = j)
    ∧ (∀ m, keyStr m "text" = none → keyStr m "answer" = none →
        keyStr m "output" = none → keyStr m "content" = none → jd m = none →
        asTextF jd ps (Answer.dict m) = ps (Answer.dict m))
    ∧ (∀ t, asTextF jd ps (Answer.other t) = ps (Answer.other t))
    ∧ (∀ ans kws, keyword_coverage jd ps ans kws
        = keyword_coverage jd ps (Answer.str (asTextF jd ps ans)) kws)
    ∧ (∀ ans ctx, context_overlap jd ps ans ctx
        = context_overlap jd ps (Answer.str (asTextF jd ps ans)) ctx) := by
  refine ⟨fun s => rfl, ?_, ?_, ?_, ?_, ?_, ?_, fun t => rfl, ?_, ?_⟩
  · intro m s h
    simp [asTextF, firstStrVal, h]
  · intro m s h1 h2
    simp [asTextF, firstStrVal, h1, h2]
  · intro m s h1 h2 h3
    simp [asTextF, firstStrVal, h1, h2, h3]
  · intro m s h1 h2 h3 h4
    simp [asTextF, firstStrVal, h1, h2, h3, h4]
  · intro m j h1 h2 h3 h4 h5
    simp [asTextF, firstStrVal, h1, h2, h3, h4, h5]
  · intro m h1 h2 h3 h4 h5
    simp [asTextF, firstStrVal, h1, h2, h3, h4, h5]
  · intro ans kws
    rfl
  · intro ans ctx
    rfl

/-- Witness for C10 at a concrete dict answer carrying a string under
`text`. -/
theorem as_text_shape_witness :
    asTextF (fun _ => none) (fun _ => "") (Answer.dict [("text", Answer.str "hi")]) = "hi" :=
  (as_text_shape (fun _ => none) (fun _ => "")).2.1 [("text", Answer.str "hi")] "hi" rfl

/-- Folding two scoring loops over a query whose tokens are all `t` preserves
an inequality of accumulators, provided each step does. -/
theorem foldl_le_foldl (f g : ℝ → String → ℝ) (t : String)
    (hstep : ∀ s1 s2, s1 ≤ s2 → f s1 t ≤ g s2 t) :
    ∀ (l : List String), (∀ u ∈ l, u = t) → ∀ s1 s2, s1 ≤ s2 →
      List.foldl f s1 l ≤ List.foldl g s2 l := by
  intro l
  induction l with
  | nil => intro _ s1 s2 h; simpa using h
  | cons a rest ih =>
    intro hl s1 s2 h
    have ha : a = t := hl a (List.mem_cons_self a rest)
    subst ha
    simp only [List.foldl_cons]
    exact ih (fun u hu => hl u (List.mem_cons_of_mem _ hu)) _ _ (hstep s1 s2 h)

/-- C5 amended: for a query all of whose tokens are `t` (in particular a
single-term query), appending one occurrence of `t` to the document's token
list — which raises `tf(t)` by one and the document length by one — never
decreases the BM25 score, for any corpus and any parameters `0 ≤ k1`,
`0 ≤ b ≤ 1`. -/
theorem bm25_single_term_monotone (corpus : List (String × String)) (k1 b : ℚ)
    (hk : 0 ≤ k1) (hb0 : 0 ≤ b) (hb1 : b ≤ 1) (qts dt : List String) (t : String)
    (hq : ∀ u ∈ qts, u = t) :
    BM25Lite.scoreTokens ℝ Real.log (mkBM25Lite corpus k1 b) qts dt
      ≤ BM25Lite.scoreTokens ℝ Real.log (mkBM25Lite corpus k1 b) qts (dt ++ [t]) := by
  set st := mkBM25Lite corpus k1 b with hst
  by_cases hN : st.N = 0
  · simp [BM25Lite.scoreTokens, hN]
  · have havg0 : (0 : ℚ) ≤ st.avg := by
      rw [hst]
      simp only [mkBM25Lite]
      by_cases hc : corpus.length = 0
      · simp [hc]
      · rw [if_neg hc]
        apply div_nonneg
        · apply List.sum_nonneg
          intro x hx
          rw [List.mem_map] at hx
          obtain ⟨d, _, rfl⟩ := hx
          positivity
        · positivity
    have hdfN : st.df t ≤ st.N := by
      rw [hst]
      simpa [mkBM25Lite] using List.length_filter_le _ corpus
    have hidf : 0 ≤ Real.log (((st.N : ℝ) - (st.df t : ℝ) + 1 / 2) / ((st.df t : ℝ) + 1 / 2) + 1) := by
      apply Real.log_nonneg
      have h1 : (0 : ℝ) ≤ ((st.N : ℝ) - (st.df t : ℝ) + 1 / 2) / ((st.df t : ℝ) + 1 / 2) := by
        apply div_nonneg
        · have : (st.df t : ℝ) ≤ (st.N : ℝ) := by exact_mod_cast hdfN
          linarith
        · positivity
      linarith
    have hbR0 : (0 : ℝ) ≤ (b : ℝ) := by exact_mod_cast hb0
    have hbR1 : (b : ℝ) ≤ 1 := by exact_mod_cast hb1
    have hkR : (0 : ℝ) ≤ (k1 : ℝ) := by exact_mod_cast hk
    have hk1R : st.k1 = k1 := rfl
    have hbRst : st.b = b := rfl
    simp only [BM25Lite.scoreTokens, if_neg hN]
    simp only [hk1R, hbRst]
    set A : ℝ := if st.avg = (0 : ℚ) then (1 : ℝ) else (st.avg : ℝ) with hA
    have hApos : (0 : ℝ) < A := by
      rw [hA]
      by_cases h : st.avg = 0
      · simp [h]
      · rw [if_neg h]
        exact_mod_cast lt_of_le_of_ne havg0 (Ne.symm h)
    have hpar : ∀ x : ℝ, 0 ≤ x → 0 ≤ 1 - (b : ℝ) + (b : ℝ) * x / A := by
      intro x hx
      have : 0 ≤ (b : ℝ) * x / A := div_nonneg (mul_nonneg hbR0 hx) hApos.le
      linarith
    have hdenom : ∀ f L : ℕ, (0 : ℝ) ≤ (f : ℝ) + (k1 : ℝ) * (1 - (b : ℝ) + (b : ℝ) * (L : ℝ) / A) := by
      intro f L
      have h2 : 0 ≤ (k1 : ℝ) * (1 - (b : ℝ) + (b : ℝ) * (L : ℝ) / A) :=
        mul_nonneg hkR (hpar _ (Nat.cast_nonneg L))
      have h3 : (0 : ℝ) ≤ (f : ℝ) := Nat.cast_nonneg f
      linarith
    have hdenomPos : ∀ f L : ℕ, f ≠ 0 →
        (0 : ℝ) < (f : ℝ) + (k1 : ℝ) * (1 - (b : ℝ) + (b : ℝ) * (L : ℝ) / A) := by
      intro f L hf
      have h2 : 0 ≤ (k1 : ℝ) * (1 - (b : ℝ) + (b : ℝ) * (L : ℝ) / A) :=
        mul_nonneg hkR (hpar _ (Nat.cast_nonneg L))
      have h3 : (1 : ℝ) ≤ (f : ℝ) := by
        have : 1 ≤ f := Nat.one_le_iff_ne_zero.mpr hf
        exact_mod_cast this
      linarith
    refine foldl_le_foldl _ _ t ?_ qts hq 0 0 le_rfl
    intro s1 s2 hss
    dsimp only
    have hcount : (dt ++ [t]).count t = dt.count t + 1 := by
      simp [List.count_append]
    by_cases h0 : dt.count t = 0
    · have h0' : ¬ (dt ++ [t]).count t = 0 := by omega
      rw [if_pos h0]
      rw [if_neg h0']
      by_cases hdf : st.df t = 0
      · rw [if_pos hdf]
        exact hss
      · rw [if_neg hdf]
        refine le_trans hss (le_add_of_nonneg_right ?_)
        apply mul_nonneg hidf
        apply div_nonneg
        · apply mul_nonneg (Nat.cast_nonneg _)
          linarith
        · exact hdenom _ _
    · have h0' : ¬ (dt ++ [t]).count t = 0 := by omega
      rw [if_neg h0]
      rw [if_neg h0']
      by_cases hdf : st.df t = 0
      · rw [if_pos hdf, if_pos hdf]
        exact hss
      · rw [if_neg hdf, if_neg hdf]
        refine add_le_add hss ?_
        apply mul_le_mul_of_nonneg_left ?_ hidf
        have hcastf : ((dt ++ [t]).count t : ℝ) = (dt.count t : ℝ) + 1 := by
          rw [hcount]
          push_cast
          ring
        have hcastl : ((dt ++ [t]).length : ℝ) = (dt.length : ℝ) + 1 := by
          push_cast [List.length_append, List.length_singleton]
          ring
        rw [hcastf, hcastl]
        have hD1 : (0 : ℝ) < (dt.count t : ℝ)
            + (k1 : ℝ) * (1 - (b : ℝ) + (b : ℝ) * (dt.length : ℝ) / A) :=
          hdenomPos _ _ h0
        have hD2 : (0 : ℝ) < (dt.count t : ℝ) + 1
            + (k1 : ℝ) * (1 - (b : ℝ) + (b : ℝ) * ((dt.length : ℝ) + 1) / A) := by
          have h2 : 0 ≤ (k1 : ℝ) * (1 - (b : ℝ) + (b : ℝ) * ((dt.length : ℝ) + 1) / A) :=
            mul_nonneg hkR (hpar _ (by positivity))
          have h3 : (0 : ℝ) ≤ (dt.count t : ℝ) := Nat.cast_nonneg _
          linarith
        rw [div_le_div_iff₀ hD1 hD2]
        have hfl : (dt.count t : ℝ) ≤ (dt.length : ℝ) := by
          exact_mod_cast List.count_le_length t dt
        have hkey : (0 : ℝ) ≤ ((k1 : ℝ) + 1) * ((k1 : ℝ) * (1 - (b : ℝ)) * A
            + (k1 : ℝ) * (b : ℝ) * ((dt.length : ℝ) - (dt.count t : ℝ))) := by
          have h1 : 0 ≤ (k1 : ℝ) * (1 - (b : ℝ)) * A :=
            mul_nonneg (mul_nonneg hkR (by linarith)) hApos.le
          have h2 : 0 ≤ (k1 : ℝ) * (b : ℝ) * ((dt.length : ℝ) - (dt.count t : ℝ)) :=
            mul_nonneg (mul_nonneg hkR hbR0) (by linarith)
          have h3 : (0 : ℝ) ≤ (k1 : ℝ) + 1 := by linarith
          nlinarith [h1, h2, h3]
        field_simp
        rw [div_le_div_iff_of_pos_right hApos]
        nlinarith [hkey]

/-- Witness for the amended C5 at a one-document corpus, single-term query
`["w"]` and document `["w"]`. -/
theorem bm25_single_term_monotone_witness :
    BM25Lite.scoreTokens ℝ Real.log (mkBM25Lite [("a", "w")] (3 / 2) (3 / 4)) ["w"] ["w"]
      ≤ BM25Lite.scoreTokens ℝ Real.log (mkBM25Lite [("a", "w")] (3 / 2) (3 / 4)) ["w"]
          (["w"] ++ ["w"]) :=
  bm25_single_term_monotone [("a", "w")] (3 / 2) (3 / 4) (by norm_num) (by norm_num)
    (by norm_num) ["w"] ["w"] "w" (by intro u hu; simpa using hu)

/-- The corpus of the C5 counterexample: one document of five occurrences of
`y` and nine one-token documents `x`, so `df(x) = 9`, `df(y) = 1`, `N = 10`,
`avgdl = 14/10`. -/
def cexCorpus : List (String × String) :=
  [("d0", "y y y y y"), ("d1", "x"), ("d2", "x"), ("d3", "x"), ("d4", "x"),
   ("d5", "x"), ("d6", "x"), ("d7", "x"), ("d8", "x"), ("d9", "x")]

/-- Counterexample to C5 as stated: against the index built from `cexCorpus`
with the default parameters, scoring the query `"x y"` strictly decreases when
one occurrence of the query term `x` is added to the document
`"y y y y y"` (document frequencies, `N` and `avgdl` are the stored index
values, hence fixed): the gain of the rare-in-idf term `x` is smaller than the
length-normalization loss on the five `y` occurrences. -/
theorem bm25_monotonicity_counterexample :
    BM25Lite.score ℝ Real.log (mkBM25Lite cexCorpus (3 / 2) (3 / 4)) "x y" "y y y y y x"
      < BM25Lite.score ℝ Real.log (mkBM25Lite cexCorpus (3 / 2) (3 / 4)) "x y" "y y y y y" := by
  have h1 : tok "x y" = ["x", "y"] := by decide
  have h2 : tok "y y y y y" = ["y", "y", "y", "y", "y"] := by decide
  have h3 : tok "y y y y y x" = ["y", "y", "y", "y", "y", "x"] := by decide
  have h4 : tok "x" = ["x"] := by decide
  have hdfx : (mkBM25Lite cexCorpus (3 / 2) (3 / 4)).df "x" = 9 := by decide
  have hdfy : (mkBM25Lite cexCorpus (3 / 2) (3 / 4)).df "y" = 1 := by decide
  have hN : (mkBM25Lite cexCorpus (3 / 2) (3 / 4)).N = 10 := rfl
  have havg : (mkBM25Lite cexCorpus (3 / 2) (3 / 4)).avg = 7 / 5 := by
    show (if cexCorpus.length = 0 then (0 : ℚ)
      else ((cexCorpus.map (fun d => ((tok d.2).length : ℚ))).sum) / cexCorpus.length) = 7 / 5
    simp [cexCorpus, h2, h4]
    norm_num
  have hk1 : (mkBM25Lite cexCorpus (3 / 2) (3 / 4)).k1 = 3 / 2 := rfl
  have hb : (mkBM25Lite cexCorpus (3 / 2) (3 / 4)).b = 3 / 4 := rfl
  unfold BM25Lite.score BM25Lite.scoreTokens
  rw [h1, h2, h3, hN, havg, hk1, hb]
  have hyx : ("y" : String) ≠ "x" := by decide
  have hxy : ("x" : String) ≠ "y" := by decide
  norm_num [List.count_cons, hdfx, hdfy, hyx, hxy]
  have hlogx : Real.log ((22 : ℝ) / 19) ≤ 3 / 19 := by
    have h := Real.log_le_sub_one_of_pos (show (0 : ℝ) < 22 / 19 by norm_num)
    linarith
  have hlogy : (19 : ℝ) / 22 ≤ Real.log ((22 : ℝ) / 3) := by
    have h := Real.log_le_sub_one_of_pos (show (0 : ℝ) < 3 / 22 by norm_num)
    have h2 : Real.log ((3 : ℝ) / 22) = - Real.log ((22 : ℝ) / 3) := by
      rw [show ((3 : ℝ) / 22) = ((22 : ℝ) / 3)⁻¹ by norm_num, Real.log_inv]
    linarith
  linarith
